import Mathlib

/-!
Shallow embedding of the compressed-sensing sampler and nearest-neighbour
path planner of `nOmicron/microscope/continuous_spectroscopy.py`
(function `compressedSensing` and its inner helpers `nn_tsp_matrix`,
`distance`, `tour_length`).

Modelling conventions:
* Python floats are modelled exactly: coordinates are rationals, Euclidean
  distances are real numbers (`Real.sqrt` of a rational square distance).
* The call `np.random.choice(a=..., size=k, replace=False, p=...)` is
  modelled by passing the drawn flat indices (`draw`) as an explicit oracle
  parameter; theorems quantify over all draws that `np.random.choice` can
  produce (pairwise distinct, in range, of the requested size).
* Python exceptions are modelled by `Except PyError`.  The explicit
  `raise Exception(msg)` statements of the validation section of
  `compressedSensing` become `PyError.configError msg` (the specification
  document calls these `ConfigurationError`); an out-of-bounds numpy array
  access becomes `PyError.indexError`; Python's `ZeroDivisionError` from
  `2/(n-1)` at `n = 1` becomes `PyError.zeroDivisionError`.
-/

/-- A physical 2-D point, as built by the coordinate loop of
`compressedSensing` (exact model of the float pair `[x, y]`). -/
abbrev Pt : Type := ℚ × ℚ

/-- Default element used for list indexing (indices are proved in range
wherever the Python code performs a well-defined access). -/
def d0 : Pt := (0, 0)

/-- Python exceptions raised by the embedded code: `configError msg` models
`raise Exception(msg)` in the validation section (the spec's
`ConfigurationError`), `indexError` models a numpy out-of-bounds access
(`IndexError`), and `zeroDivisionError` models `ZeroDivisionError`. -/
inductive PyError : Type where
  | configError : String → PyError
  | indexError : PyError
  | zeroDivisionError : PyError
deriving DecidableEq

/-- Returns `true` exactly when a result is a raised configuration error
(a `raise Exception(...)` from the validation section of the source). -/
def isConfigErrorB {α : Type} : Except PyError α → Bool
  | Except.error (PyError.configError _) => true
  | _ => false

/-- A numpy ndarray of rationals: its shape together with its row-major
flattened data (`inputProbDensArray` in the source). -/
structure NDArray : Type where
  shape : List ℕ
  data : List ℚ

/-- Squared Euclidean distance, the expression `np.sum((coord_1 - coord_2)**2)`
inside the source's `distance` helper. -/
def sqDist (a b : Pt) : ℚ := (a.1 - b.1) ^ 2 + (a.2 - b.2) ^ 2

/-- Euclidean distance `np.sqrt(np.sum((coord_1 - coord_2)**2))` (also the
metric used by `scipy.spatial.distance.cdist`). -/
noncomputable def distance (a b : Pt) : ℝ := Real.sqrt ((sqDist a b : ℚ) : ℝ)

/-- Coordinate conversion of one sampled flat index (loop body at lines
376-377 of the source):
`x = 1 - math.floor(point/n) * scale_const`,
`y = (-1) + (point % n) * scale_const`, with `scale_const = 2/(n-1)`. -/
def coordOfIndex (nn : ℕ) (i : ℕ) : Pt :=
  let scale_const : ℚ := 2 / ((nn : ℚ) - 1)
  (1 - (⌊(i : ℚ) / (nn : ℚ)⌋ : ℚ) * scale_const,
   -1 + ((i % nn : ℕ) : ℚ) * scale_const)

/-- Modelled from the spec: the coordinate formula as written in §3 of the
specification, `x = 1 - floor(index / n) * scale`,
`y = -1 + (index mod n) * scale`, `scale = 2 / (n - 1)`, with `floor` of the
division of naturals written as natural division.  Used only to compare the
source's `coordOfIndex` against the specification text. -/
def specCoordOfIndex (nn : ℕ) (i : ℕ) : Pt :=
  let scale : ℚ := 2 / ((nn : ℚ) - 1)
  (1 - ((i / nn : ℕ) : ℚ) * scale, -1 + ((i % nn : ℕ) : ℚ) * scale)

/-- The L1 norm `np.abs(x) + np.abs(y)` used to pick the start point. -/
def l1 (c : Pt) : ℚ := |c.1| + |c.2|

/-- Tail of the start-point tracking loop (lines 369-382 of the source):
running state is `(max_sum, start_n, n)`, updated by
`if np.abs(x)+np.abs(y) > max_sum: max_sum, start_n = np.abs(x)+np.abs(y), n`.
The remaining coordinates are the first argument. -/
def startScanAux : List Pt → ℚ → ℕ → ℕ → ℚ × ℕ
  | [], maxSum, startN, _ => (maxSum, startN)
  | c :: rest, maxSum, startN, n =>
      if l1 c > maxSum then startScanAux rest (l1 c) n (n + 1)
      else startScanAux rest maxSum startN (n + 1)

/-- Start-point tracking over the whole coordinate array, with the source's
initialisation `n = 0; max_sum = 0; start_n = 0`. -/
def startScan (l : List Pt) : ℚ × ℕ := startScanAux l 0 0 0

/-- Index of the first minimum of a list, the semantics of `np.argmin`
(`argmin` returns the first occurrence of the minimum value). -/
def argminIdx {α : Type} [LinearOrder α] : List α → ℕ
  | [] => 0
  | x :: xs =>
      let j := argminIdx xs
      if x ≤ xs.getD j x then 0 else j + 1

/-- Row `current` of the distance matrix after the masking assignment
`D[current, visited] = np.inf` (line 416): visited entries are `⊤`
(numpy's `inf`), the rest are Euclidean distances from the current point. -/
noncomputable def maskedRow (coords : List Pt) (visited : List Bool) (current : ℕ) :
    List (WithTop ℝ) :=
  (List.range coords.length).map (fun j =>
    if visited.getD j false = true then (⊤ : WithTop ℝ)
    else ((distance (coords.getD current d0) (coords.getD j d0) : ℝ) : WithTop ℝ))

/-- One extension step of the greedy loop (lines 414-418):
`D[current, visited] = np.inf; nxt = D[current].argmin()`. -/
noncomputable def selectNext (coords : List Pt) (visited : List Bool) (current : ℕ) : ℕ :=
  argminIdx (maskedRow coords visited current)

/-- The `for i in range(1, n)` loop of `nn_tsp_matrix`, returning the list of
selected indices; first argument is the number of remaining iterations. -/
noncomputable def nnLoop (coords : List Pt) : ℕ → List Bool → ℕ → List ℕ
  | 0, _, _ => []
  | m + 1, visited, current =>
      let nxt := selectNext coords visited current
      nxt :: nnLoop coords m (visited.set nxt true) nxt

/-- The full index tour of `nn_tsp_matrix`: `tour[0] = start_idx`, then the
greedy loop, starting from `visited = np.zeros(n)` with `visited[start] = True`. -/
noncomputable def nnTourIdx (coords : List Pt) (start : ℕ) : List ℕ :=
  start :: nnLoop coords (coords.length - 1)
    ((List.replicate coords.length false).set start true) start

/-- The source's `nn_tsp_matrix(coords, start_idx)` (lines 386-423).  The
source performs no validation: `visited[current] = True` raises `IndexError`
whenever `start_idx ≥ n` (in particular for empty `coords`); otherwise it
returns `coords[tour]`. -/
noncomputable def nn_tsp_matrix (coords : List Pt) (start : ℕ) : Except PyError (List Pt) :=
  if start < coords.length then
    Except.ok ((nnTourIdx coords start).map (fun i => coords.getD i d0))
  else Except.error PyError.indexError

/-- The source's `tour_length(tour)` (lines 428-431):
`sum(distance(tour[i], tour[i-1]) for i in range(len(tour)))`.  Python's
`tour[i-1]` at `i = 0` is `tour[-1]`, the last entry of the tour. -/
noncomputable def tour_length (t : List Pt) : ℝ :=
  ∑ i in Finset.range t.length,
    distance (t.getD i d0) (t.getD (if i = 0 then t.length - 1 else i - 1) d0)

/-- Modelled from the spec: the tour length as §3/§4.2 describe it, the sum
of Euclidean distances between consecutive tour entries taken as an open
path (no closing edge back to the start).  Used only to compare the source's
`tour_length` against the specification text. -/
noncomputable def spec_open_tour_length (t : List Pt) : ℝ :=
  ∑ i in Finset.range (t.length - 1),
    distance (t.getD i d0) (t.getD (i + 1) d0)

/-- The planner step of `compressedSensing` (lines 433-434): run
`nn_tsp_matrix` and report the tour with its `tour_length`. -/
noncomputable def planner (coords : List Pt) (start : ℕ) : Except PyError (List Pt × ℝ) :=
  match nn_tsp_matrix coords start with
  | Except.error e => Except.error e
  | Except.ok tour => Except.ok (tour, tour_length tour)

/-- The source's `compressedSensing(inputProbDensArray, p, drift)` (lines
326-447), with the random draw of `np.random.choice` passed as the oracle
parameter `draw`.  Validation raises in source order; `scale_const =
2/(inputProbDensArray.shape[0]-1)` raises `ZeroDivisionError` when the shape
is 1; `start_coord = coord_arr[start_n]` (line 384) raises `IndexError` when
the coordinate array is empty; the plotting branch is omitted (presentation
only, guarded by `display_filepath`). -/
noncomputable def compressedSensing (a : NDArray) (p : ℚ) (drift : ℤ) (draw : List ℕ) :
    Except PyError (List Pt × ℝ) :=
  if a.shape.length ≠ 2 then
    Except.error (PyError.configError "inputProbDensArray must be of dimension 2")
  else if a.shape.getD 0 0 ≠ a.shape.getD 1 0 then
    Except.error (PyError.configError "inputProbDensArray must be square array")
  else if p > 1 ∨ p < 0 then
    Except.error (PyError.configError "p must be between 0 and 1")
  else if a.shape.getD 0 0 = 1 then
    -- scale_const = 2/(shape[0]-1) : ZeroDivisionError in Python when shape[0] = 1
    Except.error PyError.zeroDivisionError
  else
    let nn := a.shape.getD 0 0
    let coord_arr := draw.map (coordOfIndex nn)
    let start_n := (startScan coord_arr).2
    match coord_arr.get? start_n with
    | none => Except.error PyError.indexError
    | some _ => planner coord_arr start_n

/-! ### Helper lemmas: first-minimum index (`np.argmin` semantics) -/

/-- The argmin of a nonempty list is a valid index. -/
theorem argminIdx_lt {α : Type} [LinearOrder α] :
    ∀ (l : List α), l ≠ [] → argminIdx l < l.length
  | [], h => absurd rfl h
  | x :: xs, _ => by
    simp only [argminIdx]
    by_cases hc : x ≤ xs.getD (argminIdx xs) x
    · rw [if_pos hc]; simp
    · rw [if_neg hc]
      have hxs : xs ≠ [] := by
        intro h; subst h; simp at hc
      have := argminIdx_lt xs hxs
      simpa using Nat.succ_lt_succ this

/-- The element at the argmin is a minimum of the list. -/
theorem argminIdx_le {α : Type} [LinearOrder α] :
    ∀ (l : List α) (d : α) (i : ℕ), i < l.length →
      l.getD (argminIdx l) d ≤ l.getD i d
  | [], _, i, hi => absurd hi (by simp)
  | x :: xs, d, i, hi => by
    simp only [argminIdx]
    by_cases hc : x ≤ xs.getD (argminIdx xs) x
    · rw [if_pos hc]
      cases i with
      | zero => simp
      | succ i' =>
        have hxs : xs ≠ [] := by
          intro h; subst h; simp at hi
        have hj : argminIdx xs < xs.length := argminIdx_lt xs hxs
        have hdd : xs.getD (argminIdx xs) x = xs.getD (argminIdx xs) d := by
          rw [List.getD_eq_getElem xs x hj, List.getD_eq_getElem xs d hj]
        have hi' : i' < xs.length := by simpa using hi
        calc (x :: xs).getD 0 d = x := List.getD_cons_zero
          _ ≤ xs.getD (argminIdx xs) d := hdd ▸ hc
          _ ≤ xs.getD i' d := argminIdx_le xs d i' hi'
          _ = (x :: xs).getD (i' + 1) d := (List.getD_cons_succ).symm
    · rw [if_neg hc]
      push_neg at hc
      have hxs : xs ≠ [] := by
        intro h; subst h; simp at hc
      have hj : argminIdx xs < xs.length := argminIdx_lt xs hxs
      have hdd : xs.getD (argminIdx xs) x = xs.getD (argminIdx xs) d := by
        rw [List.getD_eq_getElem xs x hj, List.getD_eq_getElem xs d hj]
      cases i with
      | zero =>
        calc (x :: xs).getD (argminIdx xs + 1) d = xs.getD (argminIdx xs) d :=
              List.getD_cons_succ
          _ ≤ x := le_of_lt (hdd ▸ hc)
          _ = (x :: xs).getD 0 d := (List.getD_cons_zero).symm
      | succ i' =>
        have hi' : i' < xs.length := by simpa using hi
        calc (x :: xs).getD (argminIdx xs + 1) d = xs.getD (argminIdx xs) d :=
              List.getD_cons_succ
          _ ≤ xs.getD i' d := argminIdx_le xs d i' hi'
          _ = (x :: xs).getD (i' + 1) d := (List.getD_cons_succ).symm

/-- The argmin is the FIRST index attaining the minimum: every strictly
earlier entry is strictly larger. -/
theorem argminIdx_first {α : Type} [LinearOrder α] :
    ∀ (l : List α) (d : α) (i : ℕ), i < argminIdx l →
      l.getD (argminIdx l) d < l.getD i d
  | [], _, i, hi => absurd hi (by simp [argminIdx])
  | x :: xs, d, i, hi => by
    simp only [argminIdx] at hi ⊢
    by_cases hc : x ≤ xs.getD (argminIdx xs) x
    · rw [if_pos hc] at hi; exact absurd hi (Nat.not_lt_zero i)
    · rw [if_neg hc] at hi ⊢
      push_neg at hc
      have hxs : xs ≠ [] := by
        intro h; subst h; simp at hc
      have hj : argminIdx xs < xs.length := argminIdx_lt xs hxs
      have hdd : xs.getD (argminIdx xs) x = xs.getD (argminIdx xs) d := by
        rw [List.getD_eq_getElem xs x hj, List.getD_eq_getElem xs d hj]
      cases i with
      | zero =>
        calc (x :: xs).getD (argminIdx xs + 1) d = xs.getD (argminIdx xs) d :=
              List.getD_cons_succ
          _ < x := hdd ▸ hc
          _ = (x :: xs).getD 0 d := (List.getD_cons_zero).symm
      | succ i' =>
        have hi' : i' < argminIdx xs := by omega
        calc (x :: xs).getD (argminIdx xs + 1) d = xs.getD (argminIdx xs) d :=
              List.getD_cons_succ
          _ < xs.getD i' d := argminIdx_first xs d i' hi'
          _ = (x :: xs).getD (i' + 1) d := (List.getD_cons_succ).symm

/-! ### Helper lemmas: the masked distance row and the greedy selection -/

theorem maskedRow_length (coords : List Pt) (visited : List Bool) (current : ℕ) :
    (maskedRow coords visited current).length = coords.length := by
  simp [maskedRow]

theorem maskedRow_getD (coords : List Pt) (visited : List Bool) (current : ℕ)
    (j : ℕ) (hj : j < coords.length) :
    (maskedRow coords visited current).getD j ⊤ =
      if visited.getD j false = true then (⊤ : WithTop ℝ)
      else ((distance (coords.getD current d0) (coords.getD j d0) : ℝ) : WithTop ℝ) := by
  have hj' : j < (maskedRow coords visited current).length := by
    rw [maskedRow_length]; exact hj
  rw [List.getD_eq_getElem _ _ hj']
  simp [maskedRow]

/-- The selection of the greedy step is a valid index whenever an unvisited
point exists. -/
theorem selectNext_lt (coords : List Pt) (visited : List Bool) (current : ℕ)
    (hex : ∃ j, j < coords.length ∧ visited.getD j false = false) :
    selectNext coords visited current < coords.length := by
  obtain ⟨j, hj, _⟩ := hex
  have hne : maskedRow coords visited current ≠ [] := by
    intro h
    have := maskedRow_length coords visited current
    rw [h] at this
    simp at this
    omega
  have := argminIdx_lt (maskedRow coords visited current) hne
  rwa [maskedRow_length] at this

/-- The selection of the greedy step is an unvisited point whenever an
unvisited point exists. -/
theorem selectNext_unvisited (coords : List Pt) (visited : List Bool) (current : ℕ)
    (hex : ∃ j, j < coords.length ∧ visited.getD j false = false) :
    visited.getD (selectNext coords visited current) false = false := by
  obtain ⟨j, hj, hjv⟩ := hex
  have hs : selectNext coords visited current < coords.length :=
    selectNext_lt coords visited current ⟨j, hj, hjv⟩
  have hjm : j < (maskedRow coords visited current).length := by
    rw [maskedRow_length]; exact hj
  have hle := argminIdx_le (maskedRow coords visited current) ⊤ j hjm
  rw [maskedRow_getD coords visited current j hj, if_neg (by rw [hjv]; simp)] at hle
  by_contra hcon
  rw [Bool.not_eq_false] at hcon
  rw [show argminIdx (maskedRow coords visited current) = selectNext coords visited current
        from rfl,
      maskedRow_getD coords visited current _ hs, if_pos hcon] at hle
  exact WithTop.not_top_le_coe _ hle

/-- The selection of the greedy step has minimal Euclidean distance from the
current point among unvisited points. -/
theorem selectNext_min (coords : List Pt) (visited : List Bool) (current : ℕ)
    (hex : ∃ j, j < coords.length ∧ visited.getD j false = false)
    (j : ℕ) (hj : j < coords.length) (hjv : visited.getD j false = false) :
    distance (coords.getD current d0) (coords.getD (selectNext coords visited current) d0) ≤
      distance (coords.getD current d0) (coords.getD j d0) := by
  have hs : selectNext coords visited current < coords.length :=
    selectNext_lt coords visited current hex
  have hsv := selectNext_unvisited coords visited current hex
  have hjm : j < (maskedRow coords visited current).length := by
    rw [maskedRow_length]; exact hj
  have hle := argminIdx_le (maskedRow coords visited current) ⊤ j hjm
  rw [maskedRow_getD coords visited current j hj, if_neg (by rw [hjv]; simp),
      show argminIdx (maskedRow coords visited current) = selectNext coords visited current
        from rfl,
      maskedRow_getD coords visited current _ hs, if_neg (by rw [hsv]; simp)] at hle
  exact_mod_cast hle

/-- Ties at the minimal distance are broken towards the lowest index. -/
theorem selectNext_tie (coords : List Pt) (visited : List Bool) (current : ℕ)
    (hex : ∃ j, j < coords.length ∧ visited.getD j false = false)
    (j : ℕ) (hj : j < coords.length) (hjv : visited.getD j false = false)
    (heq : distance (coords.getD current d0) (coords.getD j d0) =
      distance (coords.getD current d0) (coords.getD (selectNext coords visited current) d0)) :
    selectNext coords visited current ≤ j := by
  by_contra hcon
  push_neg at hcon
  have hs : selectNext coords visited current < coords.length :=
    selectNext_lt coords visited current hex
  have hsv := selectNext_unvisited coords visited current hex
  have hlt := argminIdx_first (maskedRow coords visited current) ⊤ j hcon
  rw [maskedRow_getD coords visited current j hj, if_neg (by rw [hjv]; simp),
      show argminIdx (maskedRow coords visited current) = selectNext coords visited current
        from rfl,
      maskedRow_getD coords visited current _ hs, if_neg (by rw [hsv]; simp)] at hlt
  have : distance (coords.getD current d0) (coords.getD (selectNext coords visited current) d0) <
      distance (coords.getD current d0) (coords.getD j d0) := by exact_mod_cast hlt
  rw [heq] at this
  exact lt_irrefl _ this

/-! ### Helper lemmas: the visited mask and the greedy loop invariant -/

theorem getD_set_self (l : List Bool) (n : ℕ) (h : n < l.length) :
    (l.set n true).getD n false = true := by
  rw [List.getD_eq_getElem _ _ (by simpa using h)]
  simp [List.getElem_set]

theorem getD_set_ne (l : List Bool) (a : Bool) (n m : ℕ) (hne : n ≠ m) :
    (l.set n a).getD m false = l.getD m false := by
  by_cases hm : m < l.length
  · rw [List.getD_eq_getElem _ _ (by simpa using hm), List.getD_eq_getElem _ _ hm]
    simp [List.getElem_set, hne]
  · rw [List.getD_eq_default _ _ (by simp; omega), List.getD_eq_default _ _ (by omega)]

/-- Setting a `false` entry of the visited mask to `true` reduces the number
of `false` entries by exactly one. -/
theorem count_set_false : ∀ (l : List Bool) (n : ℕ), n < l.length →
    l.getD n false = false → (l.set n true).count false + 1 = l.count false
  | [], n, h, _ => absurd h (by simp)
  | b :: t, 0, _, hb => by
    have : b = false := by simpa using hb
    subst this
    simp [List.count_cons]
  | b :: t, n + 1, h, hb => by
    have h' : n < t.length := by simpa using h
    have hb' : t.getD n false = false := by simpa using hb
    have := count_set_false t n h' hb'
    simp only [List.set_cons_succ, List.count_cons] at *
    omega

/-- Invariant of the greedy loop: with enough unvisited points left, the loop
produces `m` pairwise-distinct valid indices, all unvisited at entry. -/
theorem nnLoop_spec (coords : List Pt) : ∀ (m : ℕ) (visited : List Bool) (current : ℕ),
    visited.length = coords.length → m ≤ visited.count false →
    (nnLoop coords m visited current).length = m ∧
    (nnLoop coords m visited current).Nodup ∧
    ∀ x ∈ nnLoop coords m visited current,
      x < coords.length ∧ visited.getD x false = false
  | 0, visited, current, _, _ => by simp [nnLoop]
  | m + 1, visited, current, hlen, hcount => by
    have hpos : 0 < visited.count false := lt_of_lt_of_le (Nat.succ_pos m) hcount
    have hmem : false ∈ visited := List.count_pos_iff.mp hpos
    obtain ⟨w, hw, hwval⟩ := List.getElem_of_mem hmem
    have hex : ∃ j, j < coords.length ∧ visited.getD j false = false :=
      ⟨w, hlen ▸ hw, by rw [List.getD_eq_getElem _ _ hw, hwval]⟩
    have h1 : selectNext coords visited current < coords.length :=
      selectNext_lt coords visited current hex
    have h2 : visited.getD (selectNext coords visited current) false = false :=
      selectNext_unvisited coords visited current hex
    have hnlt : selectNext coords visited current < visited.length := hlen ▸ h1
    have hlen' : (visited.set (selectNext coords visited current) true).length =
        coords.length := by simpa using hlen
    have hcount' : m ≤ (visited.set (selectNext coords visited current) true).count false := by
      have := count_set_false visited (selectNext coords visited current) hnlt h2
      omega
    obtain ⟨ihlen, ihnd, ihmem⟩ :=
      nnLoop_spec coords m (visited.set (selectNext coords visited current) true)
        (selectNext coords visited current) hlen' hcount'
    have hne : ∀ x ∈ nnLoop coords m (visited.set (selectNext coords visited current) true)
        (selectNext coords visited current), x ≠ selectNext coords visited current := by
      intro x hx hcon
      have := (ihmem x hx).2
      rw [hcon, getD_set_self visited _ hnlt] at this
      simp at this
    refine ⟨by simpa [nnLoop] using ihlen, ?_, ?_⟩
    · rw [show nnLoop coords (m + 1) visited current = selectNext coords visited current ::
          nnLoop coords m (visited.set (selectNext coords visited current) true)
            (selectNext coords visited current) from rfl]
      exact List.nodup_cons.mpr ⟨fun hmem' => hne _ hmem' rfl, ihnd⟩
    · intro x hx
      rw [show nnLoop coords (m + 1) visited current = selectNext coords visited current ::
          nnLoop coords m (visited.set (selectNext coords visited current) true)
            (selectNext coords visited current) from rfl] at hx
      rcases List.mem_cons.mp hx with hx | hx
      · exact hx ▸ ⟨h1, h2⟩
      · refine ⟨(ihmem x hx).1, ?_⟩
        have := (ihmem x hx).2
        rwa [getD_set_ne visited true _ x (fun h => hne x hx h.symm)] at this

/-! ### Helper lemmas: the full index tour -/

/-- Indexing a list by all positions in order reproduces the list. -/
theorem map_getD_range (l : List Pt) :
    (List.range l.length).map (fun i => l.getD i d0) = l := by
  apply List.ext_getElem (by simp)
  intro i h1 h2
  simp only [List.getElem_map, List.getElem_range]
  exact List.getD_eq_getElem l d0 h2

/-- The index tour of `nn_tsp_matrix` is a duplicate-free enumeration of all
point indices beginning with the start index. -/
theorem nnTourIdx_spec (coords : List Pt) (start : ℕ) (hstart : start < coords.length) :
    (nnTourIdx coords start).length = coords.length ∧
    (nnTourIdx coords start).Nodup ∧
    (∀ x ∈ nnTourIdx coords start, x < coords.length) ∧
    (nnTourIdx coords start).Perm (List.range coords.length) := by
  have hlen0 : ((List.replicate coords.length false).set start true).length =
      coords.length := by simp
  have hsrep : start < (List.replicate coords.length false).length := by simpa using hstart
  have hrepD : (List.replicate coords.length false).getD start false = false := by
    rw [List.getD_eq_getElem _ _ hsrep]
    simp
  have hcount0 : ((List.replicate coords.length false).set start true).count false + 1 =
      coords.length := by
    rw [count_set_false (List.replicate coords.length false) start hsrep hrepD]
    simp
  obtain ⟨hslen, hsnd, hsmem⟩ :=
    nnLoop_spec coords (coords.length - 1)
      ((List.replicate coords.length false).set start true) start hlen0 (by omega)
  have hstartmem : ∀ x ∈ nnLoop coords (coords.length - 1)
      ((List.replicate coords.length false).set start true) start, x ≠ start := by
    intro x hx hcon
    have := (hsmem x hx).2
    rw [hcon, getD_set_self _ _ hsrep] at this
    simp at this
  have hndtour : (nnTourIdx coords start).Nodup := by
    rw [nnTourIdx]
    exact List.nodup_cons.mpr ⟨fun hmem' => hstartmem _ hmem' rfl, hsnd⟩
  have hlentour : (nnTourIdx coords start).length = coords.length := by
    rw [nnTourIdx]
    simp only [List.length_cons, hslen]
    omega
  have hmemtour : ∀ x ∈ nnTourIdx coords start, x < coords.length := by
    intro x hx
    rw [nnTourIdx] at hx
    rcases List.mem_cons.mp hx with hx | hx
    · exact hx ▸ hstart
    · exact (hsmem x hx).1
  refine ⟨hlentour, hndtour, hmemtour, ?_⟩
  have hsub : nnTourIdx coords start ⊆ List.range coords.length := by
    intro x hx
    exact List.mem_range.mpr (hmemtour x hx)
  exact List.Subperm.perm_of_length_le (List.subperm_of_subset hndtour hsub)
    (by rw [hlentour]; simp)

/-- A successful `nn_tsp_matrix` run can only arise from an in-range start
index, and its tour is nonempty. -/
theorem nn_tsp_matrix_ok (coords : List Pt) (start : ℕ) (t : List Pt)
    (h : nn_tsp_matrix coords start = Except.ok t) :
    start < coords.length ∧
    t = (nnTourIdx coords start).map (fun i => coords.getD i d0) ∧ t ≠ [] := by
  rw [nn_tsp_matrix] at h
  by_cases hs : start < coords.length
  · rw [if_pos hs] at h
    refine ⟨hs, (Except.ok.injEq _ _).mp h |>.symm, ?_⟩
    intro hnil
    rw [← (Except.ok.injEq _ _).mp h] at hnil
    rw [nnTourIdx] at hnil
    simp at hnil
  · rw [if_neg hs] at h
    exact absurd h (by simp)

/-! ### Helper lemmas: coordinates and distances -/

/-- The floor of the exact division of two naturals is natural division
(`math.floor(point/n)` on integer-valued floats). -/
theorem floor_div_nat (i nn : ℕ) : ⌊(i : ℚ) / (nn : ℚ)⌋ = ((i / nn : ℕ) : ℤ) := by
  rcases Nat.eq_zero_or_pos nn with h | h
  · subst h; simp
  · rw [Int.floor_eq_iff]
    constructor
    · push_cast
      rw [le_div_iff₀ (by exact_mod_cast h)]
      exact_mod_cast Nat.div_mul_le_self i nn
    · push_cast
      rw [div_lt_iff₀ (by exact_mod_cast h)]
      have : i < (i / nn + 1) * nn := by
        calc i = i / nn * nn + i % nn := (Nat.div_add_mod' i nn).symm
          _ < i / nn * nn + nn := Nat.add_lt_add_left (Nat.mod_lt i h) _
          _ = (i / nn + 1) * nn := by ring
      exact_mod_cast this

theorem sqDist_comm (a b : Pt) : sqDist a b = sqDist b a := by
  unfold sqDist; ring

theorem distance_comm (a b : Pt) : distance a b = distance b a := by
  unfold distance
  rw [sqDist_comm]

/-- The source's `tour_length` closes the cycle: it equals the open-path sum
plus the edge from the first entry back to the last entry. -/
theorem tour_length_eq_open_plus_closing (t : List Pt) (hne : t ≠ []) :
    tour_length t =
      spec_open_tour_length t + distance (t.getD 0 d0) (t.getD (t.length - 1) d0) := by
  obtain ⟨a, t', rfl⟩ := List.exists_cons_of_ne_nil hne
  have hlen : (a :: t').length = t'.length + 1 := by simp
  have h1 : tour_length (a :: t') =
      (∑ i in Finset.range t'.length,
        distance ((a :: t').getD (i + 1) d0) ((a :: t').getD i d0)) +
      distance ((a :: t').getD 0 d0) ((a :: t').getD t'.length d0) := by
    rw [tour_length, hlen,
      Finset.sum_range_succ' (fun i =>
        distance ((a :: t').getD i d0)
          ((a :: t').getD (if i = 0 then t'.length + 1 - 1 else i - 1) d0)) t'.length]
    congr 1
  have h2 : spec_open_tour_length (a :: t') =
      ∑ i in Finset.range t'.length,
        distance ((a :: t').getD i d0) ((a :: t').getD (i + 1) d0) := by
    rw [spec_open_tour_length, hlen, Nat.add_sub_cancel]
  rw [h1, h2, hlen, Nat.add_sub_cancel]
  congr 1
  apply Finset.sum_congr rfl
  intro i _
  exact distance_comm _ _

/-! ### Helper lemmas: the start-point scan -/

theorem l1_nonneg (c : Pt) : 0 ≤ l1 c := by
  unfold l1; positivity

/-- Invariant of the start-point tracking loop: after processing the whole
list, the recorded maximum bounds every L1 norm, and the recorded index
either was never strictly exceeded (maximum still 0, index still 0) or
points at a position attaining the maximum. -/
theorem startScanAux_spec (L : List Pt) : ∀ (rest : List Pt) (ms : ℚ) (sn m : ℕ),
    rest = L.drop m → m ≤ L.length → 0 ≤ ms →
    (∀ j, j < m → l1 (L.getD j d0) ≤ ms) →
    ((ms = 0 ∧ sn = 0) ∨ (sn < m ∧ l1 (L.getD sn d0) = ms)) →
    (∀ j, j < L.length → l1 (L.getD j d0) ≤ (startScanAux rest ms sn m).1) ∧
    (((startScanAux rest ms sn m).1 = 0 ∧ (startScanAux rest ms sn m).2 = 0) ∨
      ((startScanAux rest ms sn m).2 < L.length ∧
        l1 (L.getD (startScanAux rest ms sn m).2 d0) = (startScanAux rest ms sn m).1))
  | [], ms, sn, m, hrest, hm, _, hbound, hsn => by
    have hml : L.length ≤ m := by
      have := hrest.symm
      rwa [List.drop_eq_nil_iff] at this
    rw [startScanAux]
    refine ⟨fun j hj => hbound j (by omega), ?_⟩
    rcases hsn with h | h
    · exact Or.inl h
    · exact Or.inr ⟨by omega, h.2⟩
  | c :: rest2, ms, sn, m, hrest, hm, hms, hbound, hsn => by
    have hmlt : m < L.length := by
      by_contra hcon
      push_neg at hcon
      rw [List.drop_eq_nil_of_le hcon] at hrest
      exact absurd hrest (by simp)
    have hsome : L[m]? = some c := by
      rw [← List.head?_drop, ← hrest]
      rfl
    obtain ⟨hmlt2, hgetc⟩ := List.getElem?_eq_some_iff.mp hsome
    have hc : L.getD m d0 = c := by
      rw [List.getD_eq_getElem L d0 hmlt2, hgetc]
    have hrest2 : rest2 = L.drop (m + 1) := by
      rw [← List.tail_drop, ← hrest]
      rfl
    rw [startScanAux]
    by_cases hgt : l1 c > ms
    · rw [if_pos hgt]
      apply startScanAux_spec L rest2 (l1 c) m (m + 1) hrest2 (by omega) (l1_nonneg c)
      · intro j hj
        rcases Nat.lt_succ_iff_lt_or_eq.mp hj with hj | hj
        · exact le_trans (hbound j hj) (le_of_lt hgt)
        · rw [hj, hc]
      · exact Or.inr ⟨Nat.lt_succ_self m, by rw [hc]⟩
    · rw [if_neg hgt]
      push_neg at hgt
      apply startScanAux_spec L rest2 ms sn (m + 1) hrest2 (by omega) hms
      · intro j hj
        rcases Nat.lt_succ_iff_lt_or_eq.mp hj with hj | hj
        · exact hbound j hj
        · rw [hj, hc]; exact hgt
      · rcases hsn with h | h
        · exact Or.inl h
        · exact Or.inr ⟨by omega, h.2⟩

/-- The start-point scan of a nonempty coordinate array returns a valid index
whose coordinate maximises the L1 norm. -/
theorem startScan_spec (L : List Pt) (hne : L ≠ []) :
    (startScan L).2 < L.length ∧
    ∀ j, j < L.length → l1 (L.getD j d0) ≤ l1 (L.getD (startScan L).2 d0) := by
  have h := startScanAux_spec L L 0 0 0 (by simp) (by simp) (le_refl 0)
    (fun j hj => absurd hj (Nat.not_lt_zero j)) (Or.inl ⟨rfl, rfl⟩)
  rw [startScan]
  obtain ⟨hmax, hsn⟩ := h
  have hpos : 0 < L.length := List.length_pos.mpr hne
  rcases hsn with ⟨hms0, hsn0⟩ | ⟨hlt, heq⟩
  · rw [hsn0]
    refine ⟨hpos, fun j hj => ?_⟩
    have h1 := hmax j hj
    rw [hms0] at h1
    exact le_trans h1 (l1_nonneg _)
  · exact ⟨hlt, fun j hj => heq ▸ hmax j hj⟩

/-! ### Concrete evaluation helpers (a two-point planner run) -/

/-- Concrete test point (0, 0). -/
def ptA : Pt := (0, 0)

/-- Concrete test point (1, 0). -/
def ptB : Pt := (1, 0)

theorem distance_ptA_ptB : distance ptA ptB = 1 := by
  unfold distance
  rw [show sqDist ptA ptB = 1 by unfold sqDist ptA ptB; norm_num]
  norm_num

theorem distance_ptB_ptA : distance ptB ptA = 1 := by
  rw [distance_comm]
  exact distance_ptA_ptB

theorem selectNext_pair : selectNext [ptA, ptB] [true, false] 0 = 1 := by
  have hrow : maskedRow [ptA, ptB] [true, false] 0 =
      [(⊤ : WithTop ℝ), ((distance ptA ptB : ℝ) : WithTop ℝ)] := by
    unfold maskedRow
    simp [List.range_succ]
  unfold selectNext
  rw [hrow]
  simp [argminIdx, top_le_iff]

theorem nnTourIdx_pair : nnTourIdx [ptA, ptB] 0 = [0, 1] := by
  have h1 : nnTourIdx [ptA, ptB] 0 = 0 :: nnLoop [ptA, ptB] 1 [true, false] 0 := rfl
  have h2 : nnLoop [ptA, ptB] 1 [true, false] 0 =
      [selectNext [ptA, ptB] [true, false] 0] := rfl
  rw [h1, h2, selectNext_pair]

theorem nn_tsp_pair : nn_tsp_matrix [ptA, ptB] 0 = Except.ok [ptA, ptB] := by
  rw [nn_tsp_matrix, if_pos (by norm_num), nnTourIdx_pair]
  rfl

theorem tour_length_pair : tour_length [ptA, ptB] = 2 := by
  rw [tour_length, show ([ptA, ptB] : List Pt).length = 2 from rfl,
    Finset.sum_range_succ, Finset.sum_range_succ, Finset.sum_range_zero]
  simp [distance_ptA_ptB, distance_ptB_ptA]
  norm_num

theorem spec_open_pair : spec_open_tour_length [ptA, ptB] = 1 := by
  rw [spec_open_tour_length, show ([ptA, ptB] : List Pt).length - 1 = 1 from rfl,
    Finset.sum_range_succ, Finset.sum_range_zero]
  simp [distance_ptA_ptB]

theorem planner_eq_ok (coords : List Pt) (start : ℕ) (t : List Pt)
    (h : nn_tsp_matrix coords start = Except.ok t) :
    planner coords start = Except.ok (t, tour_length t) := by
  unfold planner
  rw [h]

theorem planner_pair : planner [ptA, ptB] 0 = Except.ok ([ptA, ptB], 2) := by
  rw [planner_eq_ok [ptA, ptB] 0 [ptA, ptB] nn_tsp_pair, tour_length_pair]

/-! ### Claim theorems -/

/-- C1, counterexample: the claim that the reported `tour_length` is the
OPEN-path sum of consecutive distances fails.  On the accepted input
`[(0,0), (1,0)]` with start index 0 the planner reports length 2, while the
open-path sum over the returned tour is 1 (the single pairwise distance):
the source's `tour_length` also adds the closing edge `tour[0] - tour[-1]`. -/
theorem c1_open_path_counterexample :
    planner [ptA, ptB] 0 = Except.ok ([ptA, ptB], 2) ∧
    spec_open_tour_length [ptA, ptB] = 1 ∧ (2 : ℝ) ≠ 1 :=
  ⟨planner_pair, spec_open_pair, by norm_num⟩

/-- C1, amended: for every coordinate set and start index the planner
accepts, the reported `tour_length` equals the open-path sum of consecutive
Euclidean distances along the tour PLUS the closing edge from the start
point back to the last point (a closed cycle); hence a 2-point tour reports
twice the single pairwise distance and a 1-point tour reports 0. -/
theorem c1_tour_length_closed (coords : List Pt) (start : ℕ) (t : List Pt) (len : ℝ)
    (h : planner coords start = Except.ok (t, len)) :
    len = spec_open_tour_length t + distance (t.getD 0 d0) (t.getD (t.length - 1) d0) := by
  unfold planner at h
  cases hm : nn_tsp_matrix coords start with
  | error e => rw [hm] at h; exact absurd h (by simp)
  | ok tour =>
    rw [hm] at h
    obtain ⟨ht, hlen⟩ : tour = t ∧ tour_length tour = len := by
      have := (Except.ok.injEq _ _).mp h
      exact ⟨congrArg Prod.fst this, congrArg Prod.snd this⟩
    obtain ⟨_, _, hne⟩ := nn_tsp_matrix_ok coords start tour hm
    rw [← ht, ← hlen]
    exact tour_length_eq_open_plus_closing tour hne

/-- C1, witness for the amended theorem at the concrete two-point run. -/
theorem c1_tour_length_closed_witness :
    planner [ptA, ptB] 0 = Except.ok ([ptA, ptB], 2) ∧
    (2 : ℝ) = spec_open_tour_length [ptA, ptB] +
      distance (([ptA, ptB] : List Pt).getD 0 d0)
        (([ptA, ptB] : List Pt).getD (([ptA, ptB] : List Pt).length - 1) d0) :=
  ⟨planner_pair, c1_tour_length_closed [ptA, ptB] 0 [ptA, ptB] 2 planner_pair⟩

/-- C3: for every nonempty coordinate array and in-range start index, the
tour returned by `nn_tsp_matrix` is a permutation of the input coordinates
(same multiset, same length, no duplicates, no omissions) and its first
entry is the coordinate at the start index. -/
theorem c3_tour_permutation (coords : List Pt) (start : ℕ)
    (hne : coords ≠ []) (hstart : start < coords.length) :
    ∃ t, nn_tsp_matrix coords start = Except.ok t ∧
      t.Perm coords ∧ t.length = coords.length ∧ t.getD 0 d0 = coords.getD start d0 := by
  obtain ⟨hlen, hnd, hmem, hperm⟩ := nnTourIdx_spec coords start hstart
  refine ⟨(nnTourIdx coords start).map (fun i => coords.getD i d0), ?_, ?_, ?_, ?_⟩
  · rw [nn_tsp_matrix, if_pos hstart]
  · have h1 : ((nnTourIdx coords start).map (fun i => coords.getD i d0)).Perm
        ((List.range coords.length).map (fun i => coords.getD i d0)) :=
      List.Perm.map _ hperm
    rwa [map_getD_range coords] at h1
  · rw [List.length_map, hlen]
  · rw [nnTourIdx]
    simp
  
/-- C3, witness at a concrete two-point input. -/
theorem c3_tour_permutation_witness :
    ([ptA, ptB] : List Pt) ≠ [] ∧ 0 < ([ptA, ptB] : List Pt).length ∧
    ∃ t, nn_tsp_matrix [ptA, ptB] 0 = Except.ok t ∧
      t.Perm [ptA, ptB] ∧ t.length = ([ptA, ptB] : List Pt).length ∧
      t.getD 0 d0 = ([ptA, ptB] : List Pt).getD 0 d0 :=
  ⟨by simp, by simp, c3_tour_permutation [ptA, ptB] 0 (by simp) (by simp)⟩

/-- C4, counterexample: the claim that the planner raises a
`ConfigurationError` on an empty coordinate set or an out-of-range start
index fails: in both situations the source raises an `IndexError` (the
unchecked assignment `visited[current] = True`), which is not a raised
configuration error. -/
theorem c4_config_error_counterexample :
    nn_tsp_matrix ([] : List Pt) 0 = Except.error PyError.indexError ∧
    isConfigErrorB (nn_tsp_matrix ([] : List Pt) 0) = false ∧
    nn_tsp_matrix [ptA] 5 = Except.error PyError.indexError ∧
    isConfigErrorB (nn_tsp_matrix [ptA] 5) = false := by
  refine ⟨?_, ?_, ?_, ?_⟩ <;> simp [nn_tsp_matrix, isConfigErrorB]

/-- C4, amended: invoking the planner on an empty coordinate set (as happens
when p = 0 draws 0 sites) or with an out-of-range start index raises an
`IndexError` from the unchecked array access `visited[current] = True` — not
a `ConfigurationError`; no validation precedes the failing access, and no
result is produced. -/
theorem c4_planner_index_error (coords : List Pt) (start : ℕ)
    (h : coords.length ≤ start) :
    nn_tsp_matrix coords start = Except.error PyError.indexError := by
  rw [nn_tsp_matrix, if_neg (by omega)]

/-- C4, witness for the amended theorem on the empty coordinate set. -/
theorem c4_planner_index_error_witness :
    ([] : List Pt).length ≤ 0 ∧
    nn_tsp_matrix ([] : List Pt) 0 = Except.error PyError.indexError :=
  ⟨by simp, c4_planner_index_error [] 0 (by simp)⟩

/-- C6: the start index recorded by the sampling loop points at a produced
coordinate whose L1 norm `|x| + |y|` is greater than or equal to that of
every other produced coordinate, for every nonempty sampling outcome. -/
theorem c6_start_max_l1 (nn : ℕ) (draw : List ℕ) (hne : draw ≠ []) :
    (startScan (draw.map (coordOfIndex nn))).2 < (draw.map (coordOfIndex nn)).length ∧
    ∀ j, j < (draw.map (coordOfIndex nn)).length →
      l1 ((draw.map (coordOfIndex nn)).getD j d0) ≤
        l1 ((draw.map (coordOfIndex nn)).getD (startScan (draw.map (coordOfIndex nn))).2 d0) :=
  startScan_spec (draw.map (coordOfIndex nn)) (by simpa using hne)

/-- C6, witness on a concrete draw from a 2 by 2 grid. -/
theorem c6_start_max_l1_witness :
    ([0, 3] : List ℕ) ≠ [] ∧
    ((startScan (([0, 3] : List ℕ).map (coordOfIndex 2))).2 <
      (([0, 3] : List ℕ).map (coordOfIndex 2)).length ∧
    ∀ j, j < (([0, 3] : List ℕ).map (coordOfIndex 2)).length →
      l1 ((([0, 3] : List ℕ).map (coordOfIndex 2)).getD j d0) ≤
        l1 ((([0, 3] : List ℕ).map (coordOfIndex 2)).getD
          (startScan (([0, 3] : List ℕ).map (coordOfIndex 2))).2 d0)) :=
  ⟨by simp, c6_start_max_l1 2 [0, 3] (by simp)⟩

/-- C7: each of the k-1 extension steps of the greedy loop (the body
`D[current, visited] = np.inf; nxt = D[current].argmin()`) selects, among
the not-yet-visited points, one with minimum Euclidean distance from the
current point, and ties at the minimum are broken towards the lowest
index. -/
theorem c7_greedy_selection (coords : List Pt) (visited : List Bool) (current : ℕ)
    (hlen : visited.length = coords.length)
    (hex : ∃ j, j < coords.length ∧ visited.getD j false = false) :
    selectNext coords visited current < coords.length ∧
    visited.getD (selectNext coords visited current) false = false ∧
    (∀ j, j < coords.length → visited.getD j false = false →
      distance (coords.getD current d0) (coords.getD (selectNext coords visited current) d0) ≤
        distance (coords.getD current d0) (coords.getD j d0)) ∧
    (∀ j, j < coords.length → visited.getD j false = false →
      distance (coords.getD current d0) (coords.getD j d0) =
        distance (coords.getD current d0) (coords.getD (selectNext coords visited current) d0) →
      selectNext coords visited current ≤ j) :=
  ⟨selectNext_lt coords visited current hex,
   selectNext_unvisited coords visited current hex,
   fun j hj hjv => selectNext_min coords visited current hex j hj hjv,
   fun j hj hjv heq => selectNext_tie coords visited current hex j hj hjv heq⟩

/-- C7, witness at a concrete state of the two-point run. -/
theorem c7_greedy_selection_witness :
    ([true, false] : List Bool).length = ([ptA, ptB] : List Pt).length ∧
    (∃ j, j < ([ptA, ptB] : List Pt).length ∧
      ([true, false] : List Bool).getD j false = false) ∧
    (selectNext [ptA, ptB] [true, false] 0 < ([ptA, ptB] : List Pt).length ∧
    ([true, false] : List Bool).getD (selectNext [ptA, ptB] [true, false] 0) false = false ∧
    (∀ j, j < ([ptA, ptB] : List Pt).length →
      ([true, false] : List Bool).getD j false = false →
      distance (([ptA, ptB] : List Pt).getD 0 d0)
          (([ptA, ptB] : List Pt).getD (selectNext [ptA, ptB] [true, false] 0) d0) ≤
        distance (([ptA, ptB] : List Pt).getD 0 d0) (([ptA, ptB] : List Pt).getD j d0)) ∧
    (∀ j, j < ([ptA, ptB] : List Pt).length →
      ([true, false] : List Bool).getD j false = false →
      distance (([ptA, ptB] : List Pt).getD 0 d0) (([ptA, ptB] : List Pt).getD j d0) =
        distance (([ptA, ptB] : List Pt).getD 0 d0)
          (([ptA, ptB] : List Pt).getD (selectNext [ptA, ptB] [true, false] 0) d0) →
      selectNext [ptA, ptB] [true, false] 0 ≤ j)) :=
  ⟨rfl, ⟨1, by norm_num, rfl⟩,
   c7_greedy_selection [ptA, ptB] [true, false] 0 rfl ⟨1, by norm_num, rfl⟩⟩

/-- C9: the drift parameter is inert — for any two drift values and the same
random draw, `compressedSensing` produces identical results (the same path
array and path length, or the same error). -/
theorem c9_drift_inert (a : NDArray) (p : ℚ) (d1 d2 : ℤ) (draw : List ℕ) :
    compressedSensing a p d1 draw = compressedSensing a p d2 draw := rfl

/-- Zeta-reduced form of `coordOfIndex`, with the floor of the exact division
replaced by natural division. -/
theorem coordOfIndex_eq (nn i : ℕ) :
    coordOfIndex nn i = (1 - ((i / nn : ℕ) : ℚ) * (2 / ((nn : ℚ) - 1)),
      -1 + ((i % nn : ℕ) : ℚ) * (2 / ((nn : ℚ) - 1))) := by
  have hfloor : ((⌊(i : ℚ) / (nn : ℚ)⌋ : ℤ) : ℚ) = ((i / nn : ℕ) : ℚ) := by
    rw [floor_div_nat]
    exact Int.cast_natCast _
  rw [show coordOfIndex nn i = (1 - ((⌊(i : ℚ) / (nn : ℚ)⌋ : ℤ) : ℚ) * (2 / ((nn : ℚ) - 1)),
      -1 + ((i % nn : ℕ) : ℚ) * (2 / ((nn : ℚ) - 1))) from rfl, hfloor]

/-- C5: a density map that is not 2-dimensional or not square, or a ratio p
outside [0, 1], makes `compressedSensing` raise a configuration error
(the source's `raise Exception(...)`) before any sampling occurs: the
result is the same for every random draw, so no randomness is consumed and
no output is produced. -/
theorem c5_sampler_validation (a : NDArray) (p : ℚ) (drift : ℤ) (draw draw2 : List ℕ)
    (h : a.shape.length ≠ 2 ∨ a.shape.getD 0 0 ≠ a.shape.getD 1 0 ∨ p > 1 ∨ p < 0) :
    isConfigErrorB (compressedSensing a p drift draw) = true ∧
    compressedSensing a p drift draw = compressedSensing a p drift draw2 := by
  unfold compressedSensing
  by_cases h1 : a.shape.length ≠ 2
  · simp only [if_pos h1]
    exact ⟨rfl, trivial⟩
  · simp only [if_neg h1]
    by_cases h2 : a.shape.getD 0 0 ≠ a.shape.getD 1 0
    · simp only [if_pos h2]
      exact ⟨rfl, trivial⟩
    · simp only [if_neg h2]
      have h3 : p > 1 ∨ p < 0 := by tauto
      simp only [if_pos h3]
      exact ⟨rfl, trivial⟩

/-- C5, witness: a 3 by 4 (non-square) map raises the configuration error
for any two different draws. -/
theorem c5_sampler_validation_witness :
    ((NDArray.mk [3, 4] []).shape.length ≠ 2 ∨
      (NDArray.mk [3, 4] []).shape.getD 0 0 ≠ (NDArray.mk [3, 4] []).shape.getD 1 0 ∨
      (1 / 2 : ℚ) > 1 ∨ (1 / 2 : ℚ) < 0) ∧
    isConfigErrorB (compressedSensing (NDArray.mk [3, 4] []) (1 / 2) 0 [0]) = true ∧
    compressedSensing (NDArray.mk [3, 4] []) (1 / 2) 0 [0] =
      compressedSensing (NDArray.mk [3, 4] []) (1 / 2) 0 [1, 2] := by
  have hh : (NDArray.mk [3, 4] []).shape.length ≠ 2 ∨
      (NDArray.mk [3, 4] []).shape.getD 0 0 ≠ (NDArray.mk [3, 4] []).shape.getD 1 0 ∨
      (1 / 2 : ℚ) > 1 ∨ (1 / 2 : ℚ) < 0 := Or.inr (Or.inl (by norm_num))
  exact ⟨hh, (c5_sampler_validation (NDArray.mk [3, 4] []) (1 / 2) 0 [0] [1, 2] hh).1,
    (c5_sampler_validation (NDArray.mk [3, 4] []) (1 / 2) 0 [0] [1, 2] hh).2⟩

/-- C8: the coordinate conversion of the source equals the spec formula
`x = 1 - floor(index/n)*scale`, `y = -1 + (index mod n)*scale` with
`scale = 2/(n-1)`, and for n ≥ 2 a row-0 index yields x = 1 and a
column-0 index yields y = -1. -/
theorem c8_coordinate_formula (nn i : ℕ) (h2 : 2 ≤ nn) :
    coordOfIndex nn i = specCoordOfIndex nn i ∧
    (i < nn → (coordOfIndex nn i).1 = 1) ∧
    (i % nn = 0 → (coordOfIndex nn i).2 = -1) := by
  refine ⟨?_, ?_, ?_⟩
  · rw [coordOfIndex_eq]
    rfl
  · intro hi
    rw [coordOfIndex_eq]
    dsimp only
    rw [Nat.div_eq_of_lt hi]
    norm_num
  · intro hmod
    rw [coordOfIndex_eq]
    dsimp only
    rw [hmod]
    norm_num

/-- C8, witness at n = 2, index 1. -/
theorem c8_coordinate_formula_witness :
    2 ≤ 2 ∧ (coordOfIndex 2 1 = specCoordOfIndex 2 1 ∧
      (1 < 2 → (coordOfIndex 2 1).1 = 1) ∧
      (1 % 2 = 0 → (coordOfIndex 2 1).2 = -1)) :=
  ⟨le_refl 2, c8_coordinate_formula 2 1 (le_refl 2)⟩

/-- C10: a 1 by 1 density map passes every validation check (it is square
and 2-dimensional, and p in [0, 1] is accepted), after which the scale
computation `2/(shape[0]-1)` performs an unguarded division by zero: the
call fails with `ZeroDivisionError` for every draw — never returning a
coordinate array and never raising a configuration error. -/
theorem c10_one_by_one_division_by_zero (a : NDArray) (p : ℚ) (drift : ℤ) (draw : List ℕ)
    (hshape : a.shape = [1, 1]) (hp0 : 0 ≤ p) (hp1 : p ≤ 1) :
    compressedSensing a p drift draw = Except.error PyError.zeroDivisionError ∧
    isConfigErrorB (compressedSensing a p drift draw) = false := by
  unfold compressedSensing
  rw [hshape]
  have h1 : ¬(([1, 1] : List ℕ).length ≠ 2) := by norm_num
  have h2 : ¬(([1, 1] : List ℕ).getD 0 0 ≠ ([1, 1] : List ℕ).getD 1 0) := by simp
  have h3 : ¬(p > 1 ∨ p < 0) := by
    push_neg
    exact ⟨hp1, hp0⟩
  have h4 : ([1, 1] : List ℕ).getD 0 0 = 1 := by simp
  rw [if_neg h1, if_neg h2, if_neg h3, if_pos h4]
  exact ⟨rfl, rfl⟩

/-- C10, witness on the map [[5]] with p = 1. -/
theorem c10_one_by_one_division_by_zero_witness :
    (NDArray.mk [1, 1] [5]).shape = [1, 1] ∧ (0 : ℚ) ≤ 1 ∧ (1 : ℚ) ≤ 1 ∧
    (compressedSensing (NDArray.mk [1, 1] [5]) 1 0 [0] =
        Except.error PyError.zeroDivisionError ∧
      isConfigErrorB (compressedSensing (NDArray.mk [1, 1] [5]) 1 0 [0]) = false) :=
  ⟨rfl, by norm_num, le_refl 1,
    c10_one_by_one_division_by_zero (NDArray.mk [1, 1] [5]) 1 0 [0] rfl (by norm_num)
      (le_refl 1)⟩

/-- C2: for every valid density map (2-dimensional, square, n at least 2,
positive total weight) and p in [0, 1], the coordinate array built by the
sampler over any admissible draw of `np.random.choice` (pairwise-distinct
in-range indices of the requested size `ceil(p*n^2)`) has exactly
`ceil(p*n^2)` entries, all pairwise distinct, all inside [-1, 1] x [-1, 1]. -/
theorem c2_sampler_count_distinct_range (a : NDArray) (nn : ℕ) (p : ℚ) (draw : List ℕ)
    (hshape : a.shape = [nn, nn]) (h2 : 2 ≤ nn) (hdata : a.data.length = nn * nn)
    (hpos : 0 < a.data.sum) (hp0 : 0 ≤ p) (hp1 : p ≤ 1)
    (hlen : draw.length = Nat.ceil (p * (a.data.length : ℚ)))
    (hnd : draw.Nodup) (hrange : ∀ i ∈ draw, i < a.data.length) :
    (draw.map (coordOfIndex nn)).length = Nat.ceil (p * ((nn * nn : ℕ) : ℚ)) ∧
    (draw.map (coordOfIndex nn)).Nodup ∧
    ∀ c ∈ draw.map (coordOfIndex nn),
      -1 ≤ c.1 ∧ c.1 ≤ 1 ∧ -1 ≤ c.2 ∧ c.2 ≤ 1 := by
  have hnn0 : 0 < nn := by omega
  have hd : (0 : ℚ) < (nn : ℚ) - 1 := by
    have : (2 : ℚ) ≤ (nn : ℚ) := by exact_mod_cast h2
    linarith
  have hs : (0 : ℚ) < 2 / ((nn : ℚ) - 1) := by positivity
  have htop : ((nn : ℚ) - 1) * (2 / ((nn : ℚ) - 1)) = 2 := by
    field_simp
  refine ⟨?_, ?_, ?_⟩
  · rw [List.length_map, hlen, hdata]
  · refine List.Nodup.map_on ?_ hnd
    intro x _ y _ hxy
    rw [coordOfIndex_eq, coordOfIndex_eq] at hxy
    obtain ⟨hfst, hsnd⟩ := Prod.mk.injEq _ _ _ _ ▸ hxy
    have hdiv : (x / nn : ℕ) = (y / nn : ℕ) := by
      have hmul : ((x / nn : ℕ) : ℚ) * (2 / ((nn : ℚ) - 1)) =
          ((y / nn : ℕ) : ℚ) * (2 / ((nn : ℚ) - 1)) := by linarith
      have := mul_right_cancel₀ (ne_of_gt hs) hmul
      exact_mod_cast this
    have hmod : (x % nn : ℕ) = (y % nn : ℕ) := by
      have hmul : ((x % nn : ℕ) : ℚ) * (2 / ((nn : ℚ) - 1)) =
          ((y % nn : ℕ) : ℚ) * (2 / ((nn : ℚ) - 1)) := by linarith
      have := mul_right_cancel₀ (ne_of_gt hs) hmul
      exact_mod_cast this
    calc x = nn * (x / nn) + x % nn := (Nat.div_add_mod x nn).symm
      _ = nn * (y / nn) + y % nn := by rw [hdiv, hmod]
      _ = y := Nat.div_add_mod y nn
  · intro c hc
    obtain ⟨i, hi, rfl⟩ := List.mem_map.mp hc
    have hilt : i < nn * nn := by
      have := hrange i hi
      rwa [hdata] at this
    have hdivle : ((i / nn : ℕ) : ℚ) ≤ (nn : ℚ) - 1 := by
      have h1 : i / nn < nn := (Nat.div_lt_iff_lt_mul hnn0).mpr hilt
      have h1' : (i / nn : ℕ) ≤ nn - 1 := by omega
      calc ((i / nn : ℕ) : ℚ) ≤ ((nn - 1 : ℕ) : ℚ) := by exact_mod_cast h1'
        _ = (nn : ℚ) - 1 := by
          rw [Nat.cast_sub (by omega)]
          norm_num
    have hmodle : ((i % nn : ℕ) : ℚ) ≤ (nn : ℚ) - 1 := by
      have h1 : i % nn < nn := Nat.mod_lt i hnn0
      have h1' : (i % nn : ℕ) ≤ nn - 1 := by omega
      calc ((i % nn : ℕ) : ℚ) ≤ ((nn - 1 : ℕ) : ℚ) := by exact_mod_cast h1'
        _ = (nn : ℚ) - 1 := by
          rw [Nat.cast_sub (by omega)]
          norm_num
    have hdiv0 : (0 : ℚ) ≤ ((i / nn : ℕ) : ℚ) := Nat.cast_nonneg _
    have hmod0 : (0 : ℚ) ≤ ((i % nn : ℕ) : ℚ) := Nat.cast_nonneg _
    have hdivmul : ((i / nn : ℕ) : ℚ) * (2 / ((nn : ℚ) - 1)) ≤ 2 := by
      calc ((i / nn : ℕ) : ℚ) * (2 / ((nn : ℚ) - 1)) ≤
          ((nn : ℚ) - 1) * (2 / ((nn : ℚ) - 1)) :=
            mul_le_mul_of_nonneg_right hdivle (le_of_lt hs)
        _ = 2 := htop
    have hmodmul : ((i % nn : ℕ) : ℚ) * (2 / ((nn : ℚ) - 1)) ≤ 2 := by
      calc ((i % nn : ℕ) : ℚ) * (2 / ((nn : ℚ) - 1)) ≤
          ((nn : ℚ) - 1) * (2 / ((nn : ℚ) - 1)) :=
            mul_le_mul_of_nonneg_right hmodle (le_of_lt hs)
        _ = 2 := htop
    have hdivmul0 : (0 : ℚ) ≤ ((i / nn : ℕ) : ℚ) * (2 / ((nn : ℚ) - 1)) :=
      mul_nonneg hdiv0 (le_of_lt hs)
    have hmodmul0 : (0 : ℚ) ≤ ((i % nn : ℕ) : ℚ) * (2 / ((nn : ℚ) - 1)) :=
      mul_nonneg hmod0 (le_of_lt hs)
    rw [coordOfIndex_eq]
    dsimp only
    exact ⟨by linarith, by linarith, by linarith, by linarith⟩

/-- C2, witness: the all-ones 2 by 2 map with p = 1/2 and the draw [0, 3]. -/
theorem c2_sampler_count_distinct_range_witness :
    (NDArray.mk [2, 2] [1, 1, 1, 1]).shape = [2, 2] ∧ 2 ≤ 2 ∧
    (NDArray.mk [2, 2] [1, 1, 1, 1]).data.length = 2 * 2 ∧
    0 < (NDArray.mk [2, 2] [1, 1, 1, 1]).data.sum ∧
    (0 : ℚ) ≤ 1 / 2 ∧ (1 / 2 : ℚ) ≤ 1 ∧
    ([0, 3] : List ℕ).length =
      Nat.ceil ((1 / 2 : ℚ) * ((NDArray.mk [2, 2] [1, 1, 1, 1]).data.length : ℚ)) ∧
    ([0, 3] : List ℕ).Nodup ∧
    (∀ i ∈ ([0, 3] : List ℕ), i < (NDArray.mk [2, 2] [1, 1, 1, 1]).data.length) ∧
    ((([0, 3] : List ℕ).map (coordOfIndex 2)).length =
      Nat.ceil ((1 / 2 : ℚ) * ((2 * 2 : ℕ) : ℚ)) ∧
    (([0, 3] : List ℕ).map (coordOfIndex 2)).Nodup ∧
    ∀ c ∈ ([0, 3] : List ℕ).map (coordOfIndex 2),
      -1 ≤ c.1 ∧ c.1 ≤ 1 ∧ -1 ≤ c.2 ∧ c.2 ≤ 1) := by
  have hlen : ([0, 3] : List ℕ).length =
      Nat.ceil ((1 / 2 : ℚ) * ((NDArray.mk [2, 2] [1, 1, 1, 1]).data.length : ℚ)) := by
    show 2 = Nat.ceil ((1 / 2 : ℚ) * ((4 : ℕ) : ℚ))
    rw [show (1 / 2 : ℚ) * ((4 : ℕ) : ℚ) = ((2 : ℕ) : ℚ) by norm_num, Nat.ceil_natCast]
  refine ⟨rfl, le_refl 2, rfl, by norm_num, by norm_num, by norm_num, hlen,
    by decide, by decide, ?_⟩
  exact c2_sampler_count_distinct_range (NDArray.mk [2, 2] [1, 1, 1, 1]) 2 (1 / 2) [0, 3]
    rfl (le_refl 2) rfl (by norm_num) (by norm_num) (by norm_num) hlen (by decide) (by decide)
